import Mathlib

/-!
Shallow embedding of the `colors-rs` fixed-point color library
(`src/lib.rs`) together with proofs of the specification claims.

Machine integers are modelled as `ℕ` (for the unsigned types `u8`,
`u16`, `u32`) or `ℤ` (for `i32` intermediates).  Every narrowing
`as uN` cast of the source appears as an explicit `% 2^N` (for `ℤ`
values: `Int.emod (2^N)` followed by `toNat`), and Rust's `i32`
division and remainder, which truncate toward zero, are `Int.tdiv`
and `Int.tmod`.
-/

namespace Colors

/-- RGB triple: the source's `type RGB = [u8; 3]`. -/
abbrev RGB := ℕ × ℕ × ℕ

/-- HWB triple `(hue, whiteness, blackness)`: the source's
`type HWB = (u32, u16, u16)`. -/
abbrev HWB := ℕ × ℕ × ℕ

/-- `pub fn rgb(v: u32) -> RGB`: unpack a packed `0xRRGGBB` value by
masks and shifts; each component ends in an `as u8` cast. -/
def rgb (v : ℕ) : RGB :=
  ((Nat.land v 0xff0000 >>> 16) % 256,
   (Nat.land v 0xff00 >>> 8) % 256,
   (Nat.land v 0xff >>> 0) % 256)

/-- `fn min(rgb: RGB) -> u8`: `rgb[0].min(rgb[1]).min(rgb[2])`. -/
def minC (c : RGB) : ℕ := Nat.min (Nat.min c.1 c.2.1) c.2.2

/-- `fn max(rgb: RGB) -> u8`: `rgb[0].max(rgb[1]).max(rgb[2])`. -/
def maxC (c : RGB) : ℕ := Nat.max (Nat.max c.1 c.2.1) c.2.2

/-- `pub fn hue_to_rgb(hue: u32) -> RGB`.  The ramp `x` carries the
source's `as u8` cast, and the sector dispatch is `h as u8 % 6`.
The `_` arm of the source is `unreachable!()`; since `_ % 6 < 6` the
last real arm (`5`) is the catch-all here. -/
def hue_to_rgb (hue : ℕ) : RGB :=
  let h := hue / 600
  let x := (hue % 600 * 255 / 600) % 256
  let y := 255 - x
  match h % 256 % 6 with
  | 0 => (255, x, 0)
  | 1 => (y, 255, 0)
  | 2 => (0, 255, x)
  | 3 => (0, y, 255)
  | 4 => (x, 0, 255)
  | _ => (255, 0, y)

/-- `pub fn gray(value: u16) -> RGB`: `(255 * value as u32 / 1000) as u8`,
repeated on all three channels. -/
def gray (value : ℕ) : RGB :=
  let v := (255 * value / 1000) % 256
  (v, v, v)

/-- Body of the per-channel loop of `mix`:
`out[i] = ((a[i] as i32 * 1000 + (b[i] as i32 - a[i] as i32) * p as i32) / 1000) as u8`. -/
def mixChannel (p a b : ℕ) : ℕ :=
  let start : ℤ := (a : ℤ) * 1000
  let delta : ℤ := ((b : ℤ) - (a : ℤ)) * (p : ℤ)
  (((start + delta).tdiv 1000) % 256).toNat

/-- `pub fn mix(p: u16, a: RGB, b: RGB) -> RGB`: the source loops
`i in 0..=2`; the loop is unrolled into the three channels. -/
def mix (p : ℕ) (a b : RGB) : RGB :=
  (mixChannel p a.1 b.1, mixChannel p a.2.1 b.2.1, mixChannel p a.2.2 b.2.2)

/-- `pub fn hwb_to_rgb(hwb: HWB) -> RGB`.  The whiteness/blackness byte
conversions carry `as u8` casts; the ramp is computed in `i32`
(`1000 - x` may conceptually go negative for out-of-range input), the
interpolated value gets an `as u8` cast and is added to the `u8` value
`w` (modelled `% 256`), and the sector dispatch is `h as u8 % 6`. -/
def hwb_to_rgb (hwb : HWB) : RGB :=
  let v := hwb.2.1 + hwb.2.2
  if v ≥ 1000 then
    let w := 1000 * hwb.2.1 / v
    gray (w % 65536)
  else
    let hue := hwb.1
    let w := (255 * hwb.2.1 / 1000) % 256
    let b := (255 * hwb.2.2 / 1000) % 256
    let v := 255 - b
    let h := hue / 600
    let x0 : ℤ := ((hue % 600 * 1000 / 600 : ℕ) : ℤ)
    let x1 : ℤ := if h % 2 = 1 then 1000 - x0 else x0
    let x := (w + (((x1 * ((v : ℤ) - (w : ℤ))).tdiv 1000) % 256).toNat) % 256
    match h % 256 % 6 with
    | 0 => (v, x, w)
    | 1 => (x, v, w)
    | 2 => (w, v, x)
    | 3 => (w, x, v)
    | 4 => (x, w, v)
    | _ => (v, w, x)

/-- `pub fn rgb_to_hwb(rgb: RGB) -> HWB`.  The chromatic branch works in
`i32` with truncating division and remainder; the final `hue as u32`
cast is `emod 2^32` then `toNat`, and the whiteness/blackness results
carry `as u16` casts.  The `dbg!` calls of the source are pass-through
and are omitted. -/
def rgb_to_hwb (c : RGB) : HWB :=
  let r := c.1
  let g := c.2.1
  let b := c.2.2
  let w := minC c
  let v := maxC c
  let black := 255 - v
  let hue : ℤ :=
    if v ≠ w then
      let f : ℤ := ((if r = v then (g : ℤ) - (b : ℤ)
                     else if g = v then (b : ℤ) - (r : ℤ)
                     else (r : ℤ) - (g : ℤ)) * 1000).tdiv 256
      let d : ℤ := (((v : ℤ) - (w : ℤ)) * 1000).tdiv 256
      let i : ℤ := if r = v then 0 else if g = v then 2 else 4
      let hue0 := (i * 600).tmod 3600
      let hue1 := hue0 + (600 * f).tdiv d
      (hue1 + 3600).tmod 3600
    else 0
  ((hue % 4294967296).toNat,
   (w * 1000 / 255) % 65536,
   (black * 1000 / 255) % 65536)

/-- `pub struct Pixels`: an RGB pixel buffer, 3 bytes per pixel. -/
structure Pixels where
  width : ℕ
  height : ℕ
  data : List ℕ

/-- `Pixels::new`: a buffer of `width * height * 3` bytes, all `255`. -/
def Pixels.new (width height : ℕ) : Pixels :=
  { width := width, height := height,
    data := List.replicate (width * height * 3) 255 }

/-- `Pixels::set`: writes three bytes at `(y * width + x) * 3`.  Rust
panics on an out-of-bounds vector index; the panic is modelled by
`none`. -/
def Pixels.set (p : Pixels) (x y : ℕ) (c : RGB) : Option Pixels :=
  let index := (y * p.width + x) * 3
  if index + 2 < p.data.length then
    some { p with
           data := ((p.data.set index c.1).set (index + 1) c.2.1).set
                     (index + 2) c.2.2 }
  else
    none

/-- `Pixels::rect`: inclusive loops `for x in x..=x+w { for y in y..=y+h }`,
each iteration calling `set`.  There is no bound check of its own; a
failing `set` (out-of-bounds index) aborts the whole call. -/
def Pixels.rect (p : Pixels) (x y w h : ℕ) (c : RGB) : Option Pixels :=
  (List.range (w + 1)).foldlM (fun acc dx =>
    (List.range (h + 1)).foldlM (fun acc2 dy =>
      acc2.set (x + dx) (y + dy) c) acc) p

/-- `pub fn palette(color: HWB)`: `SCALE = 4`, `SIZE = 1 << SCALE`,
`STEPS = 8`; builds a `(STEPS << SCALE) × (STEPS << SCALE)` buffer and
fills one `SIZE × SIZE` swatch per `(w, b)` grid cell.  The final
`save_image` call is the hand-off to the image sink; the buffer it
receives is returned here. -/
def palette (color : HWB) : Option Pixels :=
  let SCALE := 4
  let SIZE := 2 ^ SCALE
  let STEPS := 8
  let width := STEPS * 2 ^ SCALE
  let height := STEPS * 2 ^ SCALE
  let pixels := Pixels.new width height
  (List.range STEPS).foldlM (fun acc w =>
    (List.range STEPS).foldlM (fun acc2 b =>
      let x := b * 2 ^ SCALE
      let y := w * 2 ^ SCALE
      let wp := 1000 * w / (STEPS - 1)
      let bp := 1000 * b / (STEPS - 1)
      acc2.rect x y (SIZE - 1) (SIZE - 1) (hwb_to_rgb (color.1, wp, bp))) acc)
    pixels

/-! ## Reference definitions taken from the specification's words

These are the comparison points for the refinement claims: each is
written from the spec sentence quoted by the claim, not from the
source. -/

/-- Reference `hue_to_rgb` from the spec: sector `(hue / 600) mod 6`,
ramp `x = (hue mod 600) * 255 / 600`, complement `y = 255 - x`, fixed
six-case table. -/
def hueToRgbSpec (hue : ℕ) : RGB :=
  let x := hue % 600 * 255 / 600
  let y := 255 - x
  match hue / 600 % 6 with
  | 0 => (255, x, 0)
  | 1 => (y, 255, 0)
  | 2 => (0, 255, x)
  | 3 => (0, y, 255)
  | 4 => (x, 0, 255)
  | _ => (255, 0, y)

/-- Reference chromatic `hwb_to_rgb` from the claim: byte-scaled
whiteness and blackness, `value_max = 255 - b_byte`, permille ramp
inverted on odd sectors, interpolation
`x_final = w + x * (value_max - w) / 1000`, and `hue_to_rgb`'s table
parameterized by `(value_max, x_final, w)`; all divisions truncate. -/
def hwbToRgbSpec (hue wh bl : ℕ) : RGB :=
  let w := 255 * wh / 1000
  let bByte := 255 * bl / 1000
  let valueMax := 255 - bByte
  let h := hue / 600
  let x := hue % 600 * 1000 / 600
  let x2 := if h % 2 = 1 then 1000 - x else x
  let xf := w + x2 * (valueMax - w) / 1000
  match h with
  | 0 => (valueMax, xf, w)
  | 1 => (xf, valueMax, w)
  | 2 => (w, valueMax, xf)
  | 3 => (w, xf, valueMax)
  | 4 => (xf, w, valueMax)
  | _ => (valueMax, w, xf)

/-- The claim's per-channel `mix` formula read literally:
`a[i] + (b[i] - a[i]) * p / 1000` with Rust's truncating division
applied to the `(b[i] - a[i]) * p` term only. -/
def mixChannelClaim (p a b : ℕ) : ℤ :=
  (a : ℤ) + (((b : ℤ) - (a : ℤ)) * (p : ℤ)).tdiv 1000

/-- The amended per-channel `mix` formula: one truncating division of
the combined numerator `a[i] * 1000 + (b[i] - a[i]) * p`. -/
def mixChannelRef (p a b : ℕ) : ℤ :=
  ((a : ℤ) * 1000 + ((b : ℤ) - (a : ℤ)) * (p : ℤ)).tdiv 1000

/-! ## Helper lemmas -/

/-- Division superadditivity: the sum of two truncated quotients is at
most the truncated quotient of the sum. -/
lemma div_add_div_le (a b n : ℕ) (hn : 0 < n) : a / n + b / n ≤ (a + b) / n := by
  rw [Nat.le_div_iff_mul_le hn]
  have ha := Nat.div_mul_le_self a n
  have hb := Nat.div_mul_le_self b n
  calc (a / n + b / n) * n = a / n * n + b / n * n := by ring
    _ ≤ a + b := by omega

/-- Stripping the `as u8` casts from the source's interpolation
`(w + (x * (v - w) / 1000) as u8)`: when `x ≤ 1000` and `w ≤ v ≤ 255`
all intermediate values fit a byte and the `i32` arithmetic equals the
plain `ℕ` formula `w + x * (v - w) / 1000`. -/
lemma interp_strip (xn w v : ℕ) (hx : xn ≤ 1000) (hwv : w ≤ v) (hv : v ≤ 255) :
    (w + ((((xn : ℤ) * ((v : ℤ) - (w : ℤ))).tdiv 1000) % 256).toNat) % 256
      = w + xn * (v - w) / 1000 := by
  have e1 : (xn : ℤ) * ((v : ℤ) - (w : ℤ)) = ((xn * (v - w) : ℕ) : ℤ) := by
    push_cast [hwv]
    ring
  have hq : xn * (v - w) / 1000 ≤ v - w := by
    calc xn * (v - w) / 1000 ≤ 1000 * (v - w) / 1000 := by
          apply Nat.div_le_div_right
          exact Nat.mul_le_mul_right _ hx
      _ = v - w := Nat.mul_div_cancel_left _ (by norm_num)
  have e2 : ((xn * (v - w) : ℕ) : ℤ).tdiv 1000 = ((xn * (v - w) / 1000 : ℕ) : ℤ) := by
    rw [Int.ofNat_tdiv]
    norm_cast
  rw [e1, e2]
  rw [Int.emod_eq_of_lt (by positivity) (by exact_mod_cast by omega)]
  rw [Int.toNat_natCast]
  exact Nat.mod_eq_of_lt (by omega)

/-- For in-range arguments the `as u8` cast in `mix`'s loop body is the
identity and the channel value is the single truncating division of
the combined numerator. -/
lemma mixChannel_eq_ref {p a b : ℕ} (hp : p ≤ 1000) (ha : a ≤ 255)
    (hb : b ≤ 255) : (mixChannel p a b : ℤ) = mixChannelRef p a b := by
  simp only [mixChannel, mixChannelRef]
  have e1 : (a : ℤ) * 1000 + ((b : ℤ) - (a : ℤ)) * (p : ℤ)
      = ((a * (1000 - p) + b * p : ℕ) : ℤ) := by
    push_cast [hp]
    ring
  have hm : a * (1000 - p) + b * p ≤ 255000 := by
    have h1 : a * (1000 - p) ≤ 255 * (1000 - p) := Nat.mul_le_mul_right _ ha
    have h2 : b * p ≤ 255 * p := Nat.mul_le_mul_right _ hb
    have h3 : 255 * (1000 - p) + 255 * p = 255 * 1000 := by
      rw [← Nat.mul_add]
      congr 1
      omega
    omega
  rw [e1]
  have e2 : ((a * (1000 - p) + b * p : ℕ) : ℤ).tdiv 1000
      = (((a * (1000 - p) + b * p) / 1000 : ℕ) : ℤ) := by
    rw [Int.ofNat_tdiv]
    norm_cast
  rw [e2]
  have hdiv : (a * (1000 - p) + b * p) / 1000 ≤ 255 := by omega
  rw [Int.emod_eq_of_lt (Int.natCast_nonneg _)
    (by exact_mod_cast Nat.lt_of_le_of_lt hdiv (by norm_num))]
  rw [Int.toNat_natCast]

/-- Two-sided bound for a truncating division of a scaled value: if
`|x| ≤ A` then `|(x * k) / c|` (truncating) is at most `(A * k) / c`. -/
lemma tdiv_mono_abs (x A k c : ℤ) (hk : 0 ≤ k) (hc : 0 < c) (hA : 0 ≤ A)
    (h1 : -A ≤ x) (h2 : x ≤ A) :
    -((A * k).tdiv c) ≤ (x * k).tdiv c ∧ (x * k).tdiv c ≤ (A * k).tdiv c := by
  have hAk : 0 ≤ A * k := mul_nonneg hA hk
  have hAked : (A * k).tdiv c = A * k / c := Int.tdiv_eq_ediv hAk (le_of_lt hc)
  rcases le_or_lt 0 x with hx | hx
  · have hxk : 0 ≤ x * k := mul_nonneg hx hk
    have hxked : (x * k).tdiv c = x * k / c := Int.tdiv_eq_ediv hxk (le_of_lt hc)
    have hup : x * k / c ≤ A * k / c := Int.ediv_le_ediv hc (by nlinarith)
    have hlo : 0 ≤ (x * k).tdiv c := Int.tdiv_nonneg hxk (le_of_lt hc)
    have hloA : 0 ≤ (A * k).tdiv c := Int.tdiv_nonneg hAk (le_of_lt hc)
    omega
  · have hnx : 0 ≤ -x := by omega
    have hnxk : 0 ≤ -x * k := mul_nonneg hnx hk
    have e : (x * k).tdiv c = -((-x * k).tdiv c) := by
      rw [show x * k = -(-x * k) by ring, Int.neg_tdiv]
    have hup : -x * k / c ≤ A * k / c := Int.ediv_le_ediv hc (by nlinarith)
    have hed : (-x * k).tdiv c = -x * k / c := Int.tdiv_eq_ediv hnxk (le_of_lt hc)
    have hnn : 0 ≤ (-x * k).tdiv c := Int.tdiv_nonneg hnxk (le_of_lt hc)
    have hloA : 0 ≤ (A * k).tdiv c := Int.tdiv_nonneg hAk (le_of_lt hc)
    omega

/-- Range of the chromatic hue expression of `rgb_to_hwb`: with a
positive denominator `d`, a numerator `f` bounded by `|f| ≤ d`, and a
sector base `i ∈ {0, 2, 4}`, the final `+ 3600; tmod 3600` lands in
`[0, 3600)`. -/
lemma hue_expr_range (f d i : ℤ) (hd : 3 ≤ d) (hf1 : -d ≤ f) (hf2 : f ≤ d)
    (hi : i = 0 ∨ i = 2 ∨ i = 4) :
    0 ≤ ((i * 600).tmod 3600 + (600 * f).tdiv d + 3600).tmod 3600 ∧
      ((i * 600).tmod 3600 + (600 * f).tdiv d + 3600).tmod 3600 < 3600 := by
  have hq : -(600 : ℤ) ≤ (600 * f).tdiv d ∧ (600 * f).tdiv d ≤ 600 := by
    rw [show (600 : ℤ) * f = f * 600 by ring]
    have hb := tdiv_mono_abs f d 600 d (by norm_num) (by omega) (by omega) hf1 hf2
    have hcan : ((d : ℤ) * 600).tdiv d = 600 := by
      rw [Int.tdiv_eq_ediv (by nlinarith) (by omega)]
      exact Int.mul_ediv_cancel_left _ (by omega)
    omega
  have hi0 : (i * 600).tmod 3600 = i * 600 := by
    rcases hi with rfl | rfl | rfl <;> decide
  rw [hi0]
  have hsum : 0 ≤ i * 600 + (600 * f).tdiv d + 3600 := by
    rcases hi with rfl | rfl | rfl <;> omega
  rw [Int.tmod_eq_emod hsum (by norm_num)]
  exact ⟨Int.emod_nonneg _ (by norm_num), Int.emod_lt_of_pos _ (by norm_num)⟩

/-! ## Claims -/

/-- C6: for every hue in 0–3599, `hue_to_rgb` equals the spec's
reference definition (sector `(hue / 600) mod 6`, ramp
`x = (hue mod 600) * 255 / 600`, complement `y = 255 - x`, six-case
table), and the six anchor hues map to the six primary/secondary
colors. -/
theorem hue_to_rgb_matches_ref :
    (∀ hue < 3600, hue_to_rgb hue = hueToRgbSpec hue) ∧
    hue_to_rgb 0 = (255, 0, 0) ∧ hue_to_rgb 600 = (255, 255, 0) ∧
    hue_to_rgb 1200 = (0, 255, 0) ∧ hue_to_rgb 1800 = (0, 255, 255) ∧
    hue_to_rgb 2400 = (0, 0, 255) ∧ hue_to_rgb 3000 = (255, 0, 255) := by
  refine ⟨?_, by decide, by decide, by decide, by decide, by decide, by decide⟩
  intro hue hhue
  have h6 : hue / 600 < 6 := Nat.div_lt_of_lt_mul (by omega)
  have hx : hue % 600 * 255 / 600 < 256 := by
    have h599 : hue % 600 ≤ 599 := Nat.le_of_lt_succ (Nat.mod_lt _ (by norm_num))
    have : hue % 600 * 255 / 600 ≤ 599 * 255 / 600 := by
      apply Nat.div_le_div_right
      exact Nat.mul_le_mul_right _ h599
    omega
  simp only [hue_to_rgb, hueToRgbSpec]
  have e1 : hue / 600 % 256 % 6 = hue / 600 % 6 := by
    rw [Nat.mod_eq_of_lt (show hue / 600 < 256 by omega)]
  have e2 : hue % 600 * 255 / 600 % 256 = hue % 600 * 255 / 600 :=
    Nat.mod_eq_of_lt hx
  rw [e1, e2]

/-- C6 witness: the theorem applied at hue 1000. -/
theorem hue_to_rgb_matches_ref_witness :
    hue_to_rgb 1000 = hueToRgbSpec 1000 :=
  hue_to_rgb_matches_ref.1 1000 (by norm_num)

/-- C2: whenever whiteness + blackness is at least 1000 (both in
0–1000), `hwb_to_rgb` takes the achromatic branch and returns
`gray (1000 * whiteness / (whiteness + blackness))`; in particular the
three quoted values. -/
theorem hwb_to_rgb_gray_branch :
    (∀ hue wh bl : ℕ, wh ≤ 1000 → bl ≤ 1000 → 1000 ≤ wh + bl →
      hwb_to_rgb (hue, wh, bl) = gray (1000 * wh / (wh + bl))) ∧
    hwb_to_rgb (0, 1000, 0) = (255, 255, 255) ∧
    hwb_to_rgb (0, 0, 1000) = (0, 0, 0) ∧
    hwb_to_rgb (0, 1000, 1000) = (127, 127, 127) := by
  refine ⟨?_, by decide, by decide, by decide⟩
  intro hue wh bl hw hb hv
  simp only [hwb_to_rgb]
  rw [if_pos (by omega : 1000 ≤ wh + bl)]
  have hq : 1000 * wh / (wh + bl) ≤ 1000 := by
    have : 1000 * wh ≤ 1000 * (wh + bl) := by omega
    calc 1000 * wh / (wh + bl) ≤ 1000 * (wh + bl) / (wh + bl) :=
          Nat.div_le_div_right this
      _ = 1000 := Nat.mul_div_cancel _ (by omega)
  rw [Nat.mod_eq_of_lt (by omega)]

/-- C2 witness: the theorem applied at `(5, 600, 600)`. -/
theorem hwb_to_rgb_gray_branch_witness :
    hwb_to_rgb (5, 600, 600) = gray (1000 * 600 / (600 + 600)) :=
  hwb_to_rgb_gray_branch.1 5 600 600 (by norm_num) (by norm_num) (by norm_num)

set_option maxRecDepth 20000 in
/-- C3: for every achromatic triple `(c, c, c)`, converting to HWB and
back yields channels within ±1 of `c`. -/
theorem achromatic_roundtrip_within_one :
    ∀ c < 256,
      ((hwb_to_rgb (rgb_to_hwb (c, c, c))).1 ≤ c + 1 ∧
        c ≤ (hwb_to_rgb (rgb_to_hwb (c, c, c))).1 + 1) ∧
      ((hwb_to_rgb (rgb_to_hwb (c, c, c))).2.1 ≤ c + 1 ∧
        c ≤ (hwb_to_rgb (rgb_to_hwb (c, c, c))).2.1 + 1) ∧
      ((hwb_to_rgb (rgb_to_hwb (c, c, c))).2.2 ≤ c + 1 ∧
        c ≤ (hwb_to_rgb (rgb_to_hwb (c, c, c))).2.2 + 1) := by
  decide

/-- C3 witness: the theorem applied at `c = 100`. -/
theorem achromatic_roundtrip_within_one_witness :
    ((hwb_to_rgb (rgb_to_hwb (100, 100, 100))).1 ≤ 101 ∧
      100 ≤ (hwb_to_rgb (rgb_to_hwb (100, 100, 100))).1 + 1) ∧
    ((hwb_to_rgb (rgb_to_hwb (100, 100, 100))).2.1 ≤ 101 ∧
      100 ≤ (hwb_to_rgb (rgb_to_hwb (100, 100, 100))).2.1 + 1) ∧
    ((hwb_to_rgb (rgb_to_hwb (100, 100, 100))).2.2 ≤ 101 ∧
      100 ≤ (hwb_to_rgb (rgb_to_hwb (100, 100, 100))).2.2 + 1) :=
  achromatic_roundtrip_within_one 100 (by norm_num)

/-- C4 counterexample: `mix` does NOT compute
`a[i] + (b[i] - a[i]) * p / 1000` with a truncating division of the
delta term alone.  At `p = 500`, `a = (1,0,0)`, `b = (0,0,0)` the code
yields channel 0 (`(1000 - 500) / 1000 = 0`) while the claim's formula
yields `1 + tdiv (-500) 1000 = 1`. -/
theorem mix_claim_counterexample :
    ¬ (((mix 500 (1, 0, 0) (0, 0, 0)).1 : ℤ) = mixChannelClaim 500 1 0) := by
  decide

/-- C4 (amended): each channel of `mix` is the single truncating
division `(a[i] * 1000 + (b[i] - a[i]) * p) / 1000` (the whole
numerator is divided once, which floors rather than truncating the
delta term toward zero); in particular
`mix(500, (255,0,127), (0,255,127)) = (127,127,127)`. -/
theorem mix_channel_formula_amended :
    (∀ p a1 a2 a3 b1 b2 b3 : ℕ, p ≤ 1000 →
      a1 ≤ 255 → a2 ≤ 255 → a3 ≤ 255 → b1 ≤ 255 → b2 ≤ 255 → b3 ≤ 255 →
      ((mix p (a1, a2, a3) (b1, b2, b3)).1 : ℤ) = mixChannelRef p a1 b1 ∧
      ((mix p (a1, a2, a3) (b1, b2, b3)).2.1 : ℤ) = mixChannelRef p a2 b2 ∧
      ((mix p (a1, a2, a3) (b1, b2, b3)).2.2 : ℤ) = mixChannelRef p a3 b3) ∧
    mix 500 (255, 0, 127) (0, 255, 127) = (127, 127, 127) := by
  constructor
  · intro p a1 a2 a3 b1 b2 b3 hp ha1 ha2 ha3 hb1 hb2 hb3
    refine ⟨?_, ?_, ?_⟩ <;>
      simp only [mix] <;>
      [exact mixChannel_eq_ref hp ha1 hb1;
       exact mixChannel_eq_ref hp ha2 hb2;
       exact mixChannel_eq_ref hp ha3 hb3]
  · decide

/-- C4 witness: the amended theorem applied at `p = 500`,
`a = (1,0,0)`, `b = (0,0,0)` (the channel equals the floored value 0). -/
theorem mix_channel_formula_amended_witness :
    ((mix 500 (1, 0, 0) (0, 0, 0)).1 : ℤ) = mixChannelRef 500 1 0 :=
  (mix_channel_formula_amended.1 500 1 0 0 0 0 0 (by norm_num) (by norm_num)
    (by norm_num) (by norm_num) (by norm_num) (by norm_num) (by norm_num)).1

/-- C1: on chromatic inputs (hue in 0–3599, whiteness and blackness in
0–1000 with sum below 1000) `hwb_to_rgb` equals the claim's reference
definition. -/
theorem hwb_to_rgb_matches_ref (hue wh bl : ℕ) (hhue : hue < 3600)
    (hw : wh ≤ 1000) (hb : bl ≤ 1000) (hs : wh + bl < 1000) :
    hwb_to_rgb (hue, wh, bl) = hwbToRgbSpec hue wh bl := by
  have h6 : hue / 600 < 6 := by omega
  have hsum : 255 * wh / 1000 + 255 * bl / 1000 ≤ 254 := by
    have h1 := div_add_div_le (255 * wh) (255 * bl) 1000 (by norm_num)
    omega
  have hx0 : hue % 600 * 1000 / 600 ≤ 998 := by omega
  simp only [hwb_to_rgb, hwbToRgbSpec]
  rw [if_neg (by omega : ¬ 1000 ≤ wh + bl)]
  have ew : 255 * wh / 1000 % 256 = 255 * wh / 1000 :=
    Nat.mod_eq_of_lt (by omega)
  have eb : 255 * bl / 1000 % 256 = 255 * bl / 1000 :=
    Nat.mod_eq_of_lt (by omega)
  rw [ew, eb]
  have esec : hue / 600 % 256 % 6 = hue / 600 := by
    rw [Nat.mod_eq_of_lt (show hue / 600 < 256 by omega),
      Nat.mod_eq_of_lt h6]
  rw [esec]
  have hwv : 255 * wh / 1000 ≤ 255 - 255 * bl / 1000 := by omega
  have hvle : 255 - 255 * bl / 1000 ≤ 255 := by omega
  split_ifs with hpar
  · rw [show (1000 : ℤ) - ((hue % 600 * 1000 / 600 : ℕ) : ℤ)
        = ((1000 - hue % 600 * 1000 / 600 : ℕ) : ℤ) by
      push_cast [show hue % 600 * 1000 / 600 ≤ 1000 by omega]
      ring]
    rw [interp_strip (1000 - hue % 600 * 1000 / 600) (255 * wh / 1000)
      (255 - 255 * bl / 1000) (by omega) hwv hvle]
  · rw [interp_strip (hue % 600 * 1000 / 600) (255 * wh / 1000)
      (255 - 255 * bl / 1000) (by omega) hwv hvle]

/-- C1 witness: the theorem applied at `(700, 100, 200)`. -/
theorem hwb_to_rgb_matches_ref_witness :
    hwb_to_rgb (700, 100, 200) = hwbToRgbSpec 700 100 200 :=
  hwb_to_rgb_matches_ref 700 100 200 (by norm_num) (by norm_num)
    (by norm_num) (by norm_num)

/-- C5 (code/test divergence): at the gray input `0x808080` the code
returns `(0, 501, 498)` — whiteness `128 * 1000 / 255 = 501` and
blackness `127 * 1000 / 255 = 498` — exactly the claim's general
formula, while the claim's quoted value (and the repository's own
`test_convert` assertion) is `(0, 500, 500)`.  The other two quoted
values do hold. -/
theorem rgb_to_hwb_half_gray_divergence :
    rgb_to_hwb (rgb 0x808080) = (0, 501, 498) ∧
    minC (rgb 0x808080) * 1000 / 255 = 501 ∧
    (255 - maxC (rgb 0x808080)) * 1000 / 255 = 498 ∧
    rgb_to_hwb (rgb 0xff0000) = (0, 0, 0) ∧
    rgb_to_hwb (rgb 0xcc3333) = (0, 200, 200) := by
  refine ⟨by decide, by decide, by decide, by decide, by decide⟩

/-- C10: for every byte triple, `rgb_to_hwb` yields a hue in
`[0, 3600)`, whiteness and blackness at most 1000, and the chroma
denominator `(max - min) * 1000 / 256` of the chromatic branch is at
least 3 whenever `max ≠ min` (so the division by `d` cannot be a
division by zero). -/
theorem rgb_to_hwb_range (r g b : ℕ) (hr : r ≤ 255) (hg : g ≤ 255)
    (hb : b ≤ 255) :
    (rgb_to_hwb (r, g, b)).1 < 3600 ∧
    (rgb_to_hwb (r, g, b)).2.1 ≤ 1000 ∧
    (rgb_to_hwb (r, g, b)).2.2 ≤ 1000 ∧
    (maxC (r, g, b) ≠ minC (r, g, b) →
      3 ≤ (((maxC (r, g, b) : ℤ) - (minC (r, g, b) : ℤ)) * 1000).tdiv 256) := by
  have hm1 : minC (r, g, b) ≤ r :=
    le_trans (Nat.min_le_left _ _) (Nat.min_le_left _ _)
  have hm2 : minC (r, g, b) ≤ g :=
    le_trans (Nat.min_le_left _ _) (Nat.min_le_right _ _)
  have hm3 : minC (r, g, b) ≤ b := Nat.min_le_right _ _
  have hM1 : r ≤ maxC (r, g, b) :=
    le_trans (Nat.le_max_left _ _) (Nat.le_max_left _ _)
  have hM2 : g ≤ maxC (r, g, b) :=
    le_trans (Nat.le_max_right _ _) (Nat.le_max_left _ _)
  have hM3 : b ≤ maxC (r, g, b) := Nat.le_max_right _ _
  have hd3 : maxC (r, g, b) ≠ minC (r, g, b) →
      3 ≤ (((maxC (r, g, b) : ℤ) - (minC (r, g, b) : ℤ)) * 1000).tdiv 256 := by
    intro hne
    have hlow : (1000 : ℤ) ≤ ((maxC (r, g, b) : ℤ) - (minC (r, g, b) : ℤ)) * 1000 := by
      have : (1 : ℤ) ≤ (maxC (r, g, b) : ℤ) - (minC (r, g, b) : ℤ) := by
        have := le_trans hm1 hM1
        omega
      nlinarith
    rw [Int.tdiv_eq_ediv (by omega) (by norm_num)]
    calc (3 : ℤ) = 1000 / 256 := by decide
      _ ≤ _ := Int.ediv_le_ediv (by norm_num) hlow
  simp only [rgb_to_hwb]
  have hwb1 : minC (r, g, b) * 1000 / 255 % 65536 ≤ 1000 := by
    have h2 : minC (r, g, b) * 1000 ≤ 255 * 1000 :=
      Nat.mul_le_mul_right _ (by omega)
    have h3 : minC (r, g, b) * 1000 / 255 ≤ 255 * 1000 / 255 :=
      Nat.div_le_div_right h2
    rw [Nat.mod_eq_of_lt (by omega)]
    omega
  have hwb2 : (255 - maxC (r, g, b)) * 1000 / 255 % 65536 ≤ 1000 := by
    have h2 : (255 - maxC (r, g, b)) * 1000 ≤ 255 * 1000 :=
      Nat.mul_le_mul_right _ (by omega)
    have h3 : (255 - maxC (r, g, b)) * 1000 / 255 ≤ 255 * 1000 / 255 :=
      Nat.div_le_div_right h2
    rw [Nat.mod_eq_of_lt (by omega)]
    omega
  refine ⟨?_, hwb1, hwb2, hd3⟩
  by_cases hvw : maxC (r, g, b) = minC (r, g, b)
  · rw [if_neg (not_not_intro hvw)]
    decide
  · rw [if_pos hvw]
    have hdiff : -((maxC (r, g, b) : ℤ) - (minC (r, g, b) : ℤ)) ≤
        (if r = maxC (r, g, b) then (g : ℤ) - (b : ℤ)
         else if g = maxC (r, g, b) then (b : ℤ) - (r : ℤ)
         else (r : ℤ) - (g : ℤ)) ∧
        (if r = maxC (r, g, b) then (g : ℤ) - (b : ℤ)
         else if g = maxC (r, g, b) then (b : ℤ) - (r : ℤ)
         else (r : ℤ) - (g : ℤ)) ≤
          (maxC (r, g, b) : ℤ) - (minC (r, g, b) : ℤ) := by
      split_ifs <;> constructor <;> omega
    have hf := tdiv_mono_abs
      (if r = maxC (r, g, b) then (g : ℤ) - (b : ℤ)
       else if g = maxC (r, g, b) then (b : ℤ) - (r : ℤ)
       else (r : ℤ) - (g : ℤ))
      ((maxC (r, g, b) : ℤ) - (minC (r, g, b) : ℤ)) 1000 256
      (by norm_num) (by norm_num) (by omega) hdiff.1 hdiff.2
    have hi : (if r = maxC (r, g, b) then (0 : ℤ)
        else if g = maxC (r, g, b) then 2 else 4) = 0 ∨
        (if r = maxC (r, g, b) then (0 : ℤ)
        else if g = maxC (r, g, b) then 2 else 4) = 2 ∨
        (if r = maxC (r, g, b) then (0 : ℤ)
        else if g = maxC (r, g, b) then 2 else 4) = 4 := by
      split_ifs <;> norm_num
    have hE := hue_expr_range _ _ _ (hd3 hvw) hf.1 hf.2 hi
    rw [Int.emod_eq_of_lt hE.1 (by omega)]
    omega

/-- C10 witness: the theorem applied at the triple `(204, 51, 51)`. -/
theorem rgb_to_hwb_range_witness :
    (rgb_to_hwb (204, 51, 51)).1 < 3600 ∧
    (rgb_to_hwb (204, 51, 51)).2.1 ≤ 1000 ∧
    (rgb_to_hwb (204, 51, 51)).2.2 ≤ 1000 ∧
    (maxC (204, 51, 51) ≠ minC (204, 51, 51) →
      3 ≤ (((maxC (204, 51, 51) : ℤ) - (minC (204, 51, 51) : ℤ)) * 1000).tdiv 256) :=
  rgb_to_hwb_range 204 51 51 (by norm_num) (by norm_num) (by norm_num)

/-! ## Pixel buffer machinery -/

/-- The pixel-buffer invariant: fixed dimensions and the exact length
`width * height * 3`. -/
def Inv (W H : ℕ) (p : Pixels) : Prop :=
  p.width = W ∧ p.height = H ∧ p.data.length = W * H * 3

/-- An in-bounds `set` succeeds and keeps the invariant. -/
lemma set_ok {W H : ℕ} {p : Pixels} (hp : Inv W H p) {x y : ℕ}
    (hx : x < W) (hy : y < H) (c : RGB) :
    ∃ q, p.set x y c = some q ∧ Inv W H q := by
  obtain ⟨h1, h2, h3⟩ := hp
  have key : y * W + x < W * H := by
    have h4 : y * W + x < (y + 1) * W := by
      have h6 : (y + 1) * W = y * W + W := by ring
      omega
    have h5 : (y + 1) * W ≤ H * W := Nat.mul_le_mul_right W (by omega)
    have h7 : H * W = W * H := Nat.mul_comm H W
    omega
  have hidx : (y * p.width + x) * 3 + 2 < p.data.length := by
    rw [h1, h3]
    omega
  refine ⟨{ p with data := ((p.data.set ((y * p.width + x) * 3) c.1).set
      ((y * p.width + x) * 3 + 1) c.2.1).set ((y * p.width + x) * 3 + 2) c.2.2 },
    ?_, h1, h2, ?_⟩
  · simp only [Pixels.set]
    rw [if_pos hidx]
  · simp only [List.length_set]
    exact h3

/-- A successful `set` leaves the buffer length unchanged. -/
lemma set_length {p q : Pixels} {x y : ℕ} {c : RGB}
    (h : p.set x y c = some q) : q.data.length = p.data.length := by
  simp only [Pixels.set] at h
  by_cases hc : (y * p.width + x) * 3 + 2 < p.data.length
  · rw [if_pos hc] at h
    cases h
    simp [List.length_set]
  · rw [if_neg hc] at h
    exact Option.noConfusion h

/-- A monadic fold over `Option` whose every step succeeds and keeps a
property succeeds as a whole and keeps the property. -/
lemma foldlM_ok {α : Type} (P : Pixels → Prop)
    (f : Pixels → α → Option Pixels) :
    ∀ (l : List α) (p : Pixels), P p →
      (∀ q a, a ∈ l → P q → ∃ q2, f q a = some q2 ∧ P q2) →
      ∃ q, List.foldlM f p l = some q ∧ P q
  | [], p, hp, _ => ⟨p, by simp, hp⟩
  | a :: t, p, hp, hf => by
    obtain ⟨q1, hq1, h1⟩ := hf p a (List.mem_cons_self a t) hp
    obtain ⟨q2, hq2, h2⟩ := foldlM_ok P f t q1 h1
      (fun q a2 ha2 hq => hf q a2 (List.mem_cons_of_mem a ha2) hq)
    refine ⟨q2, ?_, h2⟩
    rw [List.foldlM_cons, hq1]
    simpa using hq2

/-- A successful monadic fold over `Option` whose steps preserve the
buffer length preserves the buffer length. -/
lemma foldlM_length {α : Type} (f : Pixels → α → Option Pixels) (n : ℕ)
    (hf : ∀ q a q2, f q a = some q2 → q.data.length = n → q2.data.length = n) :
    ∀ (l : List α) (p q : Pixels), List.foldlM f p l = some q →
      p.data.length = n → q.data.length = n
  | [], p, q, hq, hp => by
    simp at hq
    rw [← hq]
    exact hp
  | a :: t, p, q, hq, hp => by
    rw [List.foldlM_cons] at hq
    cases hfa : f p a with
    | none =>
      rw [hfa] at hq
      simp at hq
    | some p1 =>
      rw [hfa] at hq
      simp only [Option.bind_eq_bind, Option.some_bind] at hq
      exact foldlM_length f n hf t p1 q hq (hf p a p1 hfa hp)

/-- A successful `rect` leaves the buffer length unchanged. -/
lemma rect_length {p q : Pixels} {x y w h : ℕ} {c : RGB}
    (hr : p.rect x y w h c = some q) : q.data.length = p.data.length := by
  rw [Pixels.rect] at hr
  refine foldlM_length _ p.data.length ?_ _ _ _ hr rfl
  intro q1 dx q2 hstep hlen
  refine foldlM_length _ p.data.length ?_ _ _ _ hstep hlen
  intro q3 dy q4 hset hlen2
  rw [set_length hset, hlen2]

/-- A `rect` whose inclusive ranges stay strictly inside the buffer
succeeds and keeps the invariant. -/
lemma rect_ok {W H : ℕ} {p : Pixels} (hp : Inv W H p) {x y w h : ℕ}
    (hx : x + w < W) (hy : y + h < H) (c : RGB) :
    ∃ q, p.rect x y w h c = some q ∧ Inv W H q := by
  rw [Pixels.rect]
  refine foldlM_ok (Inv W H) _ _ p hp ?_
  intro q dx hdx hq
  refine foldlM_ok (Inv W H) _ _ q hq ?_
  intro q2 dy hdy hq2
  have hdx2 := List.mem_range.mp hdx
  have hdy2 := List.mem_range.mp hdy
  exact set_ok hq2 (by omega) (by omega) c

/-- C7 counterexample: `Pixels::rect` does not bound-check.  On a 1×1
buffer (whose length invariant holds) the call `rect(0, 0, 1, 0)`
iterates `x` over `0..=1` and the write at column 1 indexes the
3-byte vector at `3..5`, out of bounds (a panic in Rust, `none`
here). -/
theorem rect_unchecked_counterexample :
    (Pixels.new 1 1).data.length = 1 * 1 * 3 ∧
    Pixels.rect (Pixels.new 1 1) 0 0 1 0 (0, 0, 0) = none :=
  ⟨rfl, rfl⟩

/-- C7 (amended): `Pixels::rect` performs no bound check of its own —
it writes the full inclusive ranges `x..=x+w`, `y..=y+h` — but
whenever the caller keeps those ranges inside the buffer
(`x + w < width`, `y + h < height`) and the length invariant holds,
every write lands in bounds, the call succeeds, and the dimensions and
length are unchanged. -/
theorem rect_bounds_amended (p : Pixels) (x y w h : ℕ) (c : RGB)
    (hlen : p.data.length = p.width * p.height * 3)
    (hx : x + w < p.width) (hy : y + h < p.height) :
    ∃ q, p.rect x y w h c = some q ∧ q.width = p.width ∧
      q.height = p.height ∧ q.data.length = p.data.length := by
  obtain ⟨q, hq, hInv⟩ := rect_ok ⟨rfl, rfl, hlen⟩ hx hy c
  refine ⟨q, hq, hInv.1, hInv.2.1, ?_⟩
  rw [hInv.2.2, hlen]

/-- C7 witness: the amended theorem applied to a 2×2 buffer with a
full-buffer rectangle. -/
theorem rect_bounds_amended_witness :
    ∃ q, (Pixels.new 2 2).rect 0 0 1 1 (9, 9, 9) = some q ∧
      q.width = (Pixels.new 2 2).width ∧
      q.height = (Pixels.new 2 2).height ∧
      q.data.length = (Pixels.new 2 2).data.length :=
  rect_bounds_amended (Pixels.new 2 2) 0 0 1 1 (9, 9, 9) rfl
    (by norm_num [Pixels.new]) (by norm_num [Pixels.new])

/-- C8: the buffer-length invariant.  `Pixels::new` allocates exactly
`width * height * 3` bytes; every completing `set` and `rect` keeps
the length; and for every palette color the rasterizer's buffer — the
one handed to the image sink — has exactly `(8*16) * (8*16) * 3`
bytes. -/
theorem pixels_length_invariant :
    (∀ w h : ℕ, (Pixels.new w h).data.length = w * h * 3) ∧
    (∀ (p : Pixels) (x y : ℕ) (c : RGB) (q : Pixels),
      p.set x y c = some q → q.data.length = p.data.length) ∧
    (∀ (p : Pixels) (x y w h : ℕ) (c : RGB) (q : Pixels),
      p.rect x y w h c = some q → q.data.length = p.data.length) ∧
    (∀ color : HWB, ∃ q, palette color = some q ∧
      q.data.length = (8 * 16) * (8 * 16) * 3) := by
  have hpow : (2 : ℕ) ^ 4 = 16 := rfl
  refine ⟨?_, ?_, ?_, ?_⟩
  · intro w h
    simp [Pixels.new]
  · intro p x y c q hset
    exact set_length hset
  · intro p x y w h c q hrect
    exact rect_length hrect
  · intro color
    simp only [palette]
    have hnew : Inv (8 * 2 ^ 4) (8 * 2 ^ 4) (Pixels.new (8 * 2 ^ 4) (8 * 2 ^ 4)) :=
      ⟨rfl, rfl, by simp only [Pixels.new, List.length_replicate]⟩
    have hstep : ∀ (q2 : Pixels) (w : ℕ), w ∈ List.range 8 →
        Inv (8 * 2 ^ 4) (8 * 2 ^ 4) q2 →
        ∃ q3, (List.range 8).foldlM (fun acc2 b =>
            acc2.rect (b * 2 ^ 4) (w * 2 ^ 4) (2 ^ 4 - 1) (2 ^ 4 - 1)
              (hwb_to_rgb (color.1, 1000 * w / (8 - 1), 1000 * b / (8 - 1)))) q2
          = some q3 ∧ Inv (8 * 2 ^ 4) (8 * 2 ^ 4) q3 := by
      intro q2 w hw hq2
      refine foldlM_ok (Inv (8 * 2 ^ 4) (8 * 2 ^ 4)) _ (List.range 8) q2 hq2 ?_
      intro q3 b hb hq3
      have hw8 := List.mem_range.mp hw
      have hb8 := List.mem_range.mp hb
      exact rect_ok hq3 (by omega) (by omega) _
    obtain ⟨q, hq, hInv⟩ := foldlM_ok (Inv (8 * 2 ^ 4) (8 * 2 ^ 4)) _
      (List.range 8) (Pixels.new (8 * 2 ^ 4) (8 * 2 ^ 4)) hnew hstep
    refine ⟨q, hq, ?_⟩
    rw [hInv.2.2]
    norm_num

/-- C8 witness: the theorem's `new` clause at 2×3 and its `set` clause
at a concrete in-bounds write on a 1×1 buffer. -/
theorem pixels_length_invariant_witness :
    (Pixels.new 2 3).data.length = 2 * 3 * 3 ∧
    (Pixels.mk 1 1 [9, 9, 9]).data.length = (Pixels.new 1 1).data.length :=
  ⟨pixels_length_invariant.1 2 3,
   pixels_length_invariant.2.1 (Pixels.new 1 1) 0 0 (9, 9, 9)
     (Pixels.mk 1 1 [9, 9, 9]) rfl⟩

end Colors
